import Mathlib

/-!
Verification of the pptx extraction/translation scripts
(`extract_pptx.py`, `translate_pptx.py`).

Text is modelled as `List Char`.  Python `str.strip()` becomes `strip`
(dropping whitespace from both ends), and the regex search for `[A-Za-z]`
becomes `List.any isLatin`.
-/

namespace Pptx

/-- Strings of the scripts, modelled as lists of characters. -/
abbrev Str := List Char

/-- Whitespace characters removed by Python's `str.strip()`. -/
def isWS (c : Char) : Bool :=
  c = ' ' || c = '\t' || c = '\n' || c = '\r' || c = '\x0b' || c = '\x0c'

/-- A character matched by the regex `[A-Za-z]` (`EN_LATIN_RE`). -/
def isLatin (c : Char) : Bool :=
  ('A' ≤ c && c ≤ 'Z') || ('a' ≤ c && c ≤ 'z')

/-- Python `text.strip()`: drop whitespace from both ends. -/
def strip (s : Str) : Str :=
  ((s.dropWhile isWS).reverse.dropWhile isWS).reverse

/-- The classifier `is_english` from `extract_pptx.py` lines 24-36: empty input is rejected,
the input is stripped, a whitespace-only input is rejected, and otherwise the
result is whether the stripped text contains a character matching
`EN_LATIN_RE = [A-Za-z]` anywhere. -/
def is_english (text : Str) : Bool :=
  if text = [] then false
  else
    let t := strip text
    if t = [] then false
    else t.any isLatin

/-! ## Extraction data model (`extract_pptx.py`)

A shape is modelled by its two capabilities checked by the script:
`has_text_frame` (with the flattened `.text` view) and `has_table` (with the
grid of cell texts).  A slide holds its shapes, the index of its title shape
among them (`slide.shapes.title`; `none` when absent or unreadable), and the
optional notes text.  -/

/-- A shape as seen by `extract_pptx.py`: `textFrame` is `shape.text` when
`shape.has_text_frame`, `table` is the grid of cell texts when
`shape.has_table`. -/
structure Shape where
  textFrame : Option Str
  table : Option (List (List Str))
deriving DecidableEq

/-- A slide: shapes in order, the position of the title shape among them
(`none` models both "no title placeholder" and a title read that raises,
which lines 49-53 turn into `title = None`), and the notes text (`none`
models a missing or unreadable notes slide, lines 97-102). -/
structure Slide where
  shapes : List Shape
  titleIdx : Option Nat
  notes : Option Str
deriving DecidableEq

/-- A presentation: its slides in document order. -/
structure Presentation where
  slides : List Slide
deriving DecidableEq

/-- A non-empty table cell record `{"r": r, "c": c, "text": text}`
(line 89). -/
structure Cell where
  r : Nat
  c : Nat
  text : Str
deriving DecidableEq

/-- An element of a slide's `items` list: `{"type": "text", "text": …}` or
`{"type": "table", "cells": …}`. -/
inductive Item where
  | text (t : Str)
  | table (cells : List Cell)
deriving DecidableEq

/-- A per-slide record of the extraction output.  `title = none` / `notes =
none` model the absence of the corresponding JSON key. -/
structure SlideEntry where
  slide_index : Nat
  title : Option Str
  items : List Item
  notes : Option Str
deriving DecidableEq

/-- The extraction output `{"slides": …, "strings": …}` (line 120). -/
structure ExtractionRecord where
  slides : List SlideEntry
  strings : List Str
deriving DecidableEq

/-- Lines 85-91, inner loop: scan one table row (row index `r`, first column
index `c`), collecting the non-empty stripped cells and, of those, the
classified strings, in traversal order. -/
def rowCells (r : Nat) (c : Nat) : List Str → List Cell × List Str
  | [] => ([], [])
  | cellText :: restCells =>
    let t := strip cellText
    let rest := rowCells r (c + 1) restCells
    if t = [] then rest
    else (⟨r, c, t⟩ :: rest.1, (if is_english t then [t] else []) ++ rest.2)

/-- Lines 85-91, outer loop: scan the rows of a table starting at row index
`r`. -/
def tableCells (r : Nat) : List (List Str) → List Cell × List Str
  | [] => ([], [])
  | row :: restRows =>
    ((rowCells r 0 row).1 ++ (tableCells (r + 1) restRows).1,
     (rowCells r 0 row).2 ++ (tableCells (r + 1) restRows).2)

/-- Lines 72-93: the items and classified strings contributed by one
(non-title) shape: first the text-frame item (if the flattened text strips to
non-empty), then the table item (only if some cell is non-empty). -/
def shapeItemsStrings (sh : Shape) : List Item × List Str :=
  let tfPart : List Item × List Str :=
    match sh.textFrame with
    | none => ([], [])
    | some txt =>
      let t := strip txt
      if t = [] then ([], [])
      else ([Item.text t], if is_english t then [t] else [])
  let tbPart : List Item × List Str :=
    match sh.table with
    | none => ([], [])
    | some tbl =>
      (if (tableCells 0 tbl).1 = [] then [] else [Item.table (tableCells 0 tbl).1],
       (tableCells 0 tbl).2)
  (tfPart.1 ++ tbPart.1, tfPart.2 ++ tbPart.2)

/-- Lines 63-93: the shapes loop.  `j` is the position of the current shape;
the shape at `titleIdx` is skipped (`if shape == slide.shapes.title:
continue`, an identity comparison). -/
def extractShapes (titleIdx : Option Nat) (j : Nat) : List Shape → List Item × List Str
  | [] => ([], [])
  | sh :: rest =>
    let here := if titleIdx = some j then (([] : List Item), ([] : List Str))
                else shapeItemsStrings sh
    let there := extractShapes titleIdx (j + 1) rest
    (here.1 ++ there.1, here.2 ++ there.2)

/-- Lines 48-53: read the title text, already stripped.  `none` models both a
missing title placeholder and the swallowed exception. -/
def slideTitleText (s : Slide) : Option Str :=
  match s.titleIdx with
  | none => none
  | some i =>
    match s.shapes.get? i with
    | none => none
    | some sh => sh.textFrame.map strip

/-- Lines 44-110: build one slide's entry (1-based index `idx`) and the
classified strings it contributes, in traversal order: title, then shapes,
then notes. -/
def extractSlide (idx : Nat) (s : Slide) : SlideEntry × List Str :=
  let title : Option Str :=
    match slideTitleText s with
    | none => none
    | some t => if t = [] then none else some t
  let titleStrs : List Str :=
    match title with
    | none => []
    | some t => if is_english t then [t] else []
  let shapesPart := extractShapes s.titleIdx 0 s.shapes
  let notes_text := strip (match s.notes with | none => [] | some n => n)
  let notesOpt : Option Str := if notes_text = [] then none else some notes_text
  let notesStrs : List Str :=
    match notesOpt with
    | none => []
    | some n => if is_english n then [n] else []
  ({ slide_index := idx, title := title, items := shapesPart.1, notes := notesOpt },
   titleStrs ++ shapesPart.2 ++ notesStrs)

/-- Lines 44-110: the slides loop (`enumerate(prs.slides, start=1)`),
accumulating entries and the global `strings` pool. -/
def extractSlides (idx : Nat) : List Slide → List SlideEntry × List Str
  | [] => ([], [])
  | s :: rest =>
    let here := extractSlide idx s
    let there := extractSlides (idx + 1) rest
    (here.1 :: there.1, here.2 ++ there.2)

/-- Lines 112-118: deduplicate preserving order, with the `seen` set modelled
as a list. -/
def dedupGo (seen : List Str) : List Str → List Str
  | [] => []
  | s :: rest => if s ∈ seen then dedupGo seen rest else s :: dedupGo (s :: seen) rest

/-- The list `unique_strings` of lines 112-118. -/
def dedupFirst (l : List Str) : List Str := dedupGo [] l

/-- The function `extract_from_presentation` (lines 39-120). -/
def extract_from_presentation (prs : Presentation) : ExtractionRecord :=
  let result := extractSlides 1 prs.slides
  { slides := result.1, strings := dedupFirst result.2 }

/-- The strings pool before deduplication (the `strings` list of lines
42-108). -/
def collectedStrings (prs : Presentation) : List Str :=
  (extractSlides 1 prs.slides).2

/-- The entry point `cli_main` of `extract_pptx.py` (lines 123-140), restricted to the data it
computes: it parses `--dedupe` into a boolean but never reads it again, and
writes `extract_from_presentation` of the input. -/
def cli_extract_output (prs : Presentation) (dedupeFlag : Bool) : ExtractionRecord :=
  extract_from_presentation prs

/-! ## Rewrite data model (`translate_pptx.py`)

The rewrite path needs the full paragraph/run tree with formatting.  The
snapshot taken at lines 55-82 captures exactly the fields modelled here, so
`Paragraph`/`Run` double as the snapshot data.  Enumerated alignment values
and lengths/spacings are modelled as numbers; `python-pptx` lengths and
colors are `int` subclasses, so Python truthiness on them is `≠ 0`, on
strings it is non-emptiness, and on `bool` it is the value itself. -/

/-- Run-level font attributes snapshotted at lines 71-78 (`color_rgb` is
`run.font.color.rgb` when available, else `None`). -/
structure Font where
  name : Option Str
  size : Option Nat
  bold : Option Bool
  italic : Option Bool
  underline : Option Bool
  color_rgb : Option Nat
deriving DecidableEq

/-- A run: text plus font. -/
structure Run where
  text : Str
  font : Font
deriving DecidableEq

/-- A paragraph: the attributes snapshotted at lines 58-65 plus its runs.
`level` is an `int` in `python-pptx` (default 0), never `None`. -/
structure Paragraph where
  alignment : Option Nat
  level : Nat
  line_spacing : Option Nat
  space_before : Option Nat
  space_after : Option Nat
  runs : List Run
deriving DecidableEq

/-- A text frame: its paragraphs. -/
structure TextFrame where
  paragraphs : List Paragraph
deriving DecidableEq

/-- Python truthiness of an optional string (`None` and `""` are falsy). -/
def truthyStr : Option Str → Bool
  | none => false
  | some s => !s.isEmpty

/-- Python truthiness of an optional number (`None` and `0` are falsy). -/
def truthyNat : Option Nat → Bool
  | none => false
  | some n => n != 0

/-- Python truthiness of an optional boolean (`None` and `False` are
falsy). -/
def truthyBool : Option Bool → Bool
  | none => false
  | some b => b

/-- The text of a paragraph: its runs' texts concatenated. -/
def paraText (p : Paragraph) : Str := (p.runs.map Run.text).flatten

/-- The view `text_frame.text`: paragraph texts joined by newlines. -/
def frameText (f : TextFrame) : Str :=
  List.intercalate ['\n'] (f.paragraphs.map paraText)

/-- A warning printed by `translate_text` on failure (lines 28-29): the
failing string and the underlying error. -/
structure Warning where
  text : Str
  err : Str
deriving DecidableEq

/-- The wrapper `translate_text` (lines 22-30): apply the backend; on failure return the
original text and surface a warning naming the string and the error. -/
def translate_text (tr : Str → Except Str Str) (text : Str) : Str × Option Warning :=
  match tr text with
  | Except.ok t => (t, none)
  | Except.error e => (text, some ⟨text, e⟩)

/-- A run fresh from `p.add_run()`: no text, no explicit font attributes. -/
def emptyFont : Font := ⟨none, none, none, none, none, none⟩

/-- Lines 111-128: rebuild one run from its snapshot: translate the text,
create a fresh run, set the text, then set each font attribute only if its
snapshotted value is truthy. -/
def rebuildRun (tr : Str → Except Str Str) (rd : Run) : Run × Option Warning :=
  let t := translate_text tr rd.text
  ({ text := t.1,
     font :=
      { name := if truthyStr rd.font.name then rd.font.name else none,
        size := if truthyNat rd.font.size then rd.font.size else none,
        bold := if truthyBool rd.font.bold then rd.font.bold else none,
        italic := if truthyBool rd.font.italic then rd.font.italic else none,
        underline := if truthyBool rd.font.underline then rd.font.underline else none,
        color_rgb := if truthyNat rd.font.color_rgb then rd.font.color_rgb else none } },
   t.2)

/-- A paragraph fresh from `text_frame.add_paragraph()`: default attributes,
no runs. -/
def defaultPara : Paragraph := ⟨none, 0, none, none, none, []⟩

/-- Lines 96-128: rebuild one paragraph over base paragraph `base` (the
reused first structural paragraph for index 0, a fresh one otherwise) from
snapshot `pd`: `alignment` and `level` are assigned unconditionally
(lines 97-98), the three spacing attributes only when truthy (lines 99-104,
otherwise `base` keeps its current value), existing runs are removed
(lines 107-108) and the snapshotted runs are rebuilt (lines 111-128).
Also returns the translation warnings in run order. -/
def assignPara (tr : Str → Except Str Str) (base : Paragraph) (pd : Paragraph) :
    Paragraph × List Warning :=
  let rs := pd.runs.map (rebuildRun tr)
  ({ alignment := pd.alignment,
     level := pd.level,
     line_spacing := if truthyNat pd.line_spacing then pd.line_spacing else base.line_spacing,
     space_before := if truthyNat pd.space_before then pd.space_before else base.space_before,
     space_after := if truthyNat pd.space_after then pd.space_after else base.space_after,
     runs := rs.map Prod.fst },
   rs.filterMap Prod.snd)

/-- Which paragraph-level attributes the restore step executes an assignment
for, given snapshot `pd`: the trace of lines 97-104 (`p.alignment = …` and
`p.level = …` always run; each spacing assignment runs only under its
truthiness guard). -/
inductive PAttr where
  | alignment
  | level
  | line_spacing
  | space_before
  | space_after
deriving DecidableEq

/-- The list of paragraph-attribute assignments executed by lines 97-104 for
snapshot `pd`, in program order. -/
def paraAssignments (pd : Paragraph) : List PAttr :=
  [PAttr.alignment, PAttr.level]
    ++ (if truthyNat pd.line_spacing then [PAttr.line_spacing] else [])
    ++ (if truthyNat pd.space_before then [PAttr.space_before] else [])
    ++ (if truthyNat pd.space_after then [PAttr.space_after] else [])

/-- Lines 51-128 (and identically 131-209 for table cells): the
formatting-preserving rewrite of one text frame.  If the flattened text is
whitespace-only the frame is untouched; otherwise every paragraph is
snapshotted, all paragraphs but the first are destroyed, and the tree is
rebuilt from the snapshot (the first paragraph is reused, later ones are
fresh). -/
def rewrite_text_frame (tr : Str → Except Str Str) (f : TextFrame) :
    TextFrame × List Warning :=
  if strip (frameText f) = [] then (f, [])
  else
    match f.paragraphs with
    | [] => (f, [])
    | p0 :: rest =>
      let r0 := assignPara tr p0 p0
      let rs := rest.map (assignPara tr defaultPara)
      ({ paragraphs := r0.1 :: rs.map Prod.fst }, r0.2 ++ (rs.map Prod.snd).flatten)

/-- Lines split on `"\n"`, as Python `text.split("\n")`. -/
def splitLines (s : Str) : List Str := s.splitOn '\n'

/-- The `text_frame.text = s` setter used for titles and notes: the frame is
replaced by one paragraph per line of `s`, each holding a single run with no
explicit formatting. -/
def setFrameText (s : Str) : TextFrame :=
  { paragraphs := (splitLines s).map fun line =>
      { alignment := none, level := 0, line_spacing := none,
        space_before := none, space_after := none,
        runs := [{ text := line, font := emptyFont }] } }

/-- Lines 38-42 of `translate_pptx.py`: the driver's title step.  When the
title's flattened text is non-blank it is replaced wholesale:
`slide.shapes.title.text = translate_text(title_text)` — a flat text
assignment through the `.text` setter, not a paragraph/run-preserving
rewrite. -/
def translateTitleFrame (tr : Str → Except Str Str) (frame : TextFrame) :
    TextFrame × List Warning :=
  let title_text := frameText frame
  if strip title_text = [] then (frame, [])
  else
    let t := translate_text tr title_text
    (setFrameText t.1, t.2.toList)

/-- Concrete two-paragraph frame used to instantiate the shape-preservation
theorem. -/
def c2wFrame : TextFrame :=
  ⟨[⟨some 1, 0, some 2, none, none,
     [⟨['H','i'], ⟨some ['A'], some 12, some true, none, none, some 255⟩⟩]⟩,
    ⟨none, 1, none, none, none, [⟨['Y','o'], emptyFont⟩, ⟨['Z'], emptyFont⟩]⟩]⟩

/-- Concrete always-succeeding translation backend. -/
def c2wTr : Str → Except Str Str := fun _ => Except.ok ['X']

/-- The text of run `j` of paragraph `i` of a frame, when both exist. -/
def frameRunText (f : TextFrame) (i j : Nat) : Option Str :=
  (f.paragraphs[i]?).bind (fun p => (p.runs[j]?).map Run.text)

/-- Concrete frame for the failure-containment witness: two runs, the backend
fails on the second only. -/
def c4wFrame : TextFrame :=
  ⟨[⟨none, 0, none, none, none, [⟨['A'], emptyFont⟩, ⟨['B'], emptyFont⟩]⟩]⟩

/-- Concrete backend failing exactly on `"B"`. -/
def c4wTr : Str → Except Str Str :=
  fun s => if s = ['B'] then Except.error ['E'] else Except.ok ['X']

/-- Concrete multi-paragraph, multi-run title frame. -/
def c7Frame : TextFrame :=
  ⟨[⟨none, 0, none, none, none,
     [⟨['H','e'], emptyFont⟩,
      ⟨['l','l','o'], ⟨none, none, none, some true, none, none⟩⟩]⟩,
    ⟨none, 0, none, none, none,
     [⟨['W','o','r','l','d'], ⟨none, none, some true, none, none, none⟩⟩]⟩]⟩

/-- The identity translation backend (never fails). -/
def idTr : Str → Except Str Str := fun s => Except.ok s

/-- Concrete shape with a table whose only non-empty cell sits at row 1,
column 1. -/
def c6Shape : Shape :=
  ⟨none, some [[[' '], []], [[], [' ','c','e','l','l',' ']]]⟩

/-! ## Theorems -/

theorem dropWhile_head_false {p : Char → Bool} {l : List Char} {a : Char}
    {rest : List Char} (h : l.dropWhile p = a :: rest) : p a = false := by
  induction l with
  | nil => simp at h
  | cons b l ih =>
    by_cases hb : p b = true
    · rw [List.dropWhile_cons_of_pos hb] at h; exact ih h
    · rw [List.dropWhile_cons_of_neg (by simpa using hb)] at h
      cases h; simpa using hb

theorem dropWhile_of_head_false {p : Char → Bool} {l : List Char}
    (h : ∀ a rest, l = a :: rest → p a = false) : l.dropWhile p = l := by
  cases l with
  | nil => rfl
  | cons a rest => exact List.dropWhile_cons_of_neg (by simp [h a rest rfl])

theorem dropWhile_getLast? {p : Char → Bool} {l : List Char}
    (h : l.dropWhile p ≠ []) : (l.dropWhile p).getLast? = l.getLast? := by
  induction l with
  | nil => simp at h
  | cons a t ih =>
    by_cases ha : p a = true
    · rw [List.dropWhile_cons_of_pos ha] at h ⊢
      rw [ih h]
      cases t with
      | nil => simp at h
      | cons b u => simp
    · rw [List.dropWhile_cons_of_neg (by simpa using ha)]

/-- Stripping is idempotent. -/
theorem strip_idem (s : Str) : strip (strip s) = strip s := by
  by_cases h0 : strip s = []
  · rw [h0]; rfl
  · have hmne : ((s.dropWhile isWS).reverse.dropWhile isWS) ≠ [] := by
      intro h
      exact h0 (by simp [strip, h])
    have h1 : ((s.dropWhile isWS).reverse.dropWhile isWS).reverse.dropWhile isWS
        = ((s.dropWhile isWS).reverse.dropWhile isWS).reverse := by
      apply dropWhile_of_head_false
      intro a rest har
      have hhead : ((s.dropWhile isWS).reverse.dropWhile isWS).reverse.head? = some a := by
        rw [har]; rfl
      rw [List.head?_reverse] at hhead
      rw [dropWhile_getLast? hmne, List.getLast?_reverse] at hhead
      cases hA : s.dropWhile isWS with
      | nil => rw [hA] at hhead; simp at hhead
      | cons b u =>
        rw [hA] at hhead
        simp only [List.head?_cons, Option.some.injEq] at hhead
        subst hhead
        exact dropWhile_head_false hA
    have h2 : ((s.dropWhile isWS).reverse.dropWhile isWS).dropWhile isWS
        = (s.dropWhile isWS).reverse.dropWhile isWS := by
      apply dropWhile_of_head_false
      intro a rest har
      exact dropWhile_head_false har
    show (((((s.dropWhile isWS).reverse.dropWhile isWS).reverse).dropWhile
        isWS).reverse.dropWhile isWS).reverse
        = ((s.dropWhile isWS).reverse.dropWhile isWS).reverse
    rw [h1, List.reverse_reverse, h2]

/-- A stripped string is empty iff every character of the original is
whitespace. -/
theorem strip_eq_nil_iff (s : Str) : strip s = [] ↔ ∀ c ∈ s, isWS c = true := by
  unfold strip
  constructor
  · intro h c hc
    have h2 : (s.dropWhile isWS).reverse.dropWhile isWS = [] := by
      cases he : (s.dropWhile isWS).reverse.dropWhile isWS with
      | nil => rfl
      | cons a t => rw [he] at h; simp at h
    rw [List.dropWhile_eq_nil_iff] at h2
    by_cases hws : isWS c = true
    · exact hws
    · exfalso
      have hcs : c ∈ s.dropWhile isWS ∨ c ∈ s.takeWhile isWS := by
        have := List.takeWhile_append_dropWhile (p := isWS) (l := s)
        rw [← this] at hc
        rcases List.mem_append.mp hc with h | h
        · exact Or.inr h
        · exact Or.inl h
      rcases hcs with h | h
      · have := h2 c (by simpa using h)
        simp at this; exact hws (by simpa using this)
      · exact hws (List.mem_takeWhile_imp h)
  · intro h
    have h1 : s.dropWhile isWS = [] := List.dropWhile_eq_nil_iff.mpr fun c hc => by
      simpa using h c hc
    simp [h1]

/-- C1: `is_english` returns false when the input is empty or whitespace-only,
and otherwise returns true iff the trimmed input contains an ASCII Latin
letter anywhere.  (The function is a pure Lean function, so it has no side
effects by construction.) -/
theorem is_english_latin_letter_spec (s : Str) :
    is_english s = true ↔
      ((¬ ∀ c ∈ s, isWS c = true) ∧ ∃ c ∈ strip s, isLatin c = true) := by
  unfold is_english
  by_cases h : s = []
  · subst h
    simp [strip]
  · rw [if_neg h]
    by_cases h2 : strip s = []
    · simp [h2]
    · have hws : ¬ ∀ c ∈ s, isWS c = true :=
        fun hall => h2 ((strip_eq_nil_iff s).mpr hall)
      rw [if_neg h2]
      simp [List.any_eq_true, hws]

/-- C8: the extractor's output is the same whether or not `--dedupe` is
supplied: `cli_main` parses the flag but never reads it, and always returns
`extract_from_presentation` (which always deduplicates). -/
theorem cli_extract_output_flag_independent (prs : Presentation) (f1 f2 : Bool) :
    cli_extract_output prs f1 = extract_from_presentation prs
    ∧ cli_extract_output prs f1 = cli_extract_output prs f2 :=
  ⟨rfl, rfl⟩

/-- C3 counterexample: for the snapshot of a paragraph whose alignment is
null, the restore step of lines 97-104 still executes the `p.alignment = …`
assignment (and `p.level = …`), so a null snapshotted attribute is not "never
explicitly assigned". -/
theorem paraAssignments_alignment_despite_null :
    (⟨none, 0, none, none, none, []⟩ : Paragraph).alignment = none
    ∧ PAttr.alignment ∈ paraAssignments ⟨none, 0, none, none, none, []⟩
    ∧ PAttr.level ∈ paraAssignments ⟨none, 0, none, none, none, []⟩ := by
  refine ⟨rfl, ?_, ?_⟩ <;> decide

/-- C3 (amended): during the rebuild, `line_spacing`, `space_before` and
`space_after` are assigned iff their snapshotted value is truthy, and a
falsy snapshot leaves a freshly created paragraph's default (`none`)
untouched; but `alignment` and `level` are always assigned, including when
the snapshotted alignment is null (the fresh paragraph still ends with the
snapshotted values for them). -/
theorem para_attr_restore_spec (tr : Str → Except Str Str) (pd : Paragraph) :
    (PAttr.alignment ∈ paraAssignments pd)
    ∧ (PAttr.level ∈ paraAssignments pd)
    ∧ ((PAttr.line_spacing ∈ paraAssignments pd) ↔ truthyNat pd.line_spacing = true)
    ∧ ((PAttr.space_before ∈ paraAssignments pd) ↔ truthyNat pd.space_before = true)
    ∧ ((PAttr.space_after ∈ paraAssignments pd) ↔ truthyNat pd.space_after = true)
    ∧ ((assignPara tr defaultPara pd).1.line_spacing
        = (if truthyNat pd.line_spacing = true then pd.line_spacing else none))
    ∧ ((assignPara tr defaultPara pd).1.space_before
        = (if truthyNat pd.space_before = true then pd.space_before else none))
    ∧ ((assignPara tr defaultPara pd).1.space_after
        = (if truthyNat pd.space_after = true then pd.space_after else none))
    ∧ (assignPara tr defaultPara pd).1.alignment = pd.alignment
    ∧ (assignPara tr defaultPara pd).1.level = pd.level := by
  refine ⟨by simp [paraAssignments], by simp [paraAssignments], ?_, ?_, ?_, ?_, ?_, ?_, rfl, rfl⟩
  · by_cases h : truthyNat pd.line_spacing = true <;> simp [paraAssignments, h]
  · by_cases h : truthyNat pd.space_before = true <;> simp [paraAssignments, h]
  · by_cases h : truthyNat pd.space_after = true <;> simp [paraAssignments, h]
  · by_cases h : truthyNat pd.line_spacing = true <;> simp [assignPara, h, defaultPara]
  · by_cases h : truthyNat pd.space_before = true <;> simp [assignPara, h, defaultPara]
  · by_cases h : truthyNat pd.space_after = true <;> simp [assignPara, h, defaultPara]

theorem assignPara_runs (tr : Str → Except Str Str) (base pd : Paragraph) :
    (assignPara tr base pd).1.runs = pd.runs.map (fun r => (rebuildRun tr r).1) := by
  simp [assignPara, List.map_map]

theorem rebuildRun_spec (tr : Str → Except Str Str) (r : Run) :
    (rebuildRun tr r).1.text = (translate_text tr r.text).1
    ∧ (truthyStr r.font.name = true → (rebuildRun tr r).1.font.name = r.font.name)
    ∧ (truthyNat r.font.size = true → (rebuildRun tr r).1.font.size = r.font.size)
    ∧ (truthyBool r.font.bold = true → (rebuildRun tr r).1.font.bold = r.font.bold)
    ∧ (truthyBool r.font.italic = true → (rebuildRun tr r).1.font.italic = r.font.italic)
    ∧ (truthyBool r.font.underline = true →
        (rebuildRun tr r).1.font.underline = r.font.underline)
    ∧ (truthyNat r.font.color_rgb = true →
        (rebuildRun tr r).1.font.color_rgb = r.font.color_rgb) := by
  refine ⟨rfl, ?_, ?_, ?_, ?_, ?_, ?_⟩ <;> intro h <;> simp [rebuildRun, h]

theorem assignPara_runs_spec (tr : Str → Except Str Str) (base pd : Paragraph) :
    (assignPara tr base pd).1.runs.length = pd.runs.length
    ∧ ∀ (j : Nat) (r r' : Run), pd.runs[j]? = some r →
        (assignPara tr base pd).1.runs[j]? = some r' →
        (r'.text = (translate_text tr r.text).1
         ∧ (truthyStr r.font.name = true → r'.font.name = r.font.name)
         ∧ (truthyNat r.font.size = true → r'.font.size = r.font.size)
         ∧ (truthyBool r.font.bold = true → r'.font.bold = r.font.bold)
         ∧ (truthyBool r.font.italic = true → r'.font.italic = r.font.italic)
         ∧ (truthyBool r.font.underline = true → r'.font.underline = r.font.underline)
         ∧ (truthyNat r.font.color_rgb = true → r'.font.color_rgb = r.font.color_rgb)) := by
  rw [assignPara_runs]
  refine ⟨List.length_map _ _, ?_⟩
  intro j r r' hr hr'
  rw [List.getElem?_map, hr, Option.map_some'] at hr'
  cases hr'
  exact rebuildRun_spec tr r

/-- The rebuilt paragraph list, pointwise: paragraph `i` of the output is
`assignPara` of paragraph `i` of the input, over the reused first paragraph
for `i = 0` and a fresh paragraph otherwise. -/
theorem rewrite_text_frame_paragraphs (tr : Str → Except Str Str) (f : TextFrame)
    (h : ¬ strip (frameText f) = []) (i : Nat) :
    (rewrite_text_frame tr f).1.paragraphs[i]?
      = (f.paragraphs[i]?).map
          (fun p => (assignPara tr (if i = 0 then p else defaultPara) p).1) := by
  unfold rewrite_text_frame
  rw [if_neg h]
  cases hf : f.paragraphs with
  | nil => simp [hf]
  | cons p0 rest =>
    cases i with
    | zero => simp
    | succ n =>
      simp only [List.map_map, List.getElem?_cons_succ, List.getElem?_map]
      cases rest[n]? <;> rfl

theorem rewrite_text_frame_length (tr : Str → Except Str Str) (f : TextFrame)
    (h : ¬ strip (frameText f) = []) :
    (rewrite_text_frame tr f).1.paragraphs.length = f.paragraphs.length := by
  unfold rewrite_text_frame
  rw [if_neg h]
  cases hf : f.paragraphs with
  | nil => simp [hf]
  | cons p0 rest => simp

/-- C2 counterexample: a non-blank frame whose single run has `bold = False`
(non-null, falsy).  After the rewrite the run's `bold` is null: a non-null
font attribute was not preserved, because the restore step only assigns
truthy snapshot values. -/
theorem rewrite_frame_falsy_bold_dropped :
    ((⟨[⟨none, 0, none, none, none,
        [⟨['H','i'], ⟨none, none, some false, none, none, none⟩⟩]⟩]⟩ : TextFrame).paragraphs.map
          (fun p => p.runs.map (fun r => r.font.bold)) = [[some false]])
    ∧ (strip (frameText ⟨[⟨none, 0, none, none, none,
        [⟨['H','i'], ⟨none, none, some false, none, none, none⟩⟩]⟩]⟩) = ['H','i'])
    ∧ ((rewrite_text_frame (fun _ => Except.ok ['X'])
        ⟨[⟨none, 0, none, none, none,
          [⟨['H','i'], ⟨none, none, some false, none, none, none⟩⟩]⟩]⟩).1.paragraphs.map
          (fun p => p.runs.map (fun r => r.font.bold)) = [[none]]) := by
  refine ⟨rfl, by decide, by decide⟩

/-- C2 (amended): on a non-blank frame the rewrite preserves the paragraph
count and each paragraph's run count exactly, and every *truthy* snapshotted
font attribute (non-empty name, non-zero size, `bold`/`italic`/`underline`
equal to `True`, non-zero color) is preserved on the rebuilt run; each run's
text becomes the translation of its snapshotted text.  (Falsy-but-non-null
attributes, such as `bold = False` or a zero color, are reset to null — see
the counterexample.) -/
theorem rewrite_frame_shape_preservation (tr : Str → Except Str Str) (f : TextFrame)
    (h : ¬ strip (frameText f) = []) :
    (rewrite_text_frame tr f).1.paragraphs.length = f.paragraphs.length
    ∧ ∀ (i : Nat) (p q : Paragraph), f.paragraphs[i]? = some p →
        (rewrite_text_frame tr f).1.paragraphs[i]? = some q →
        (q.runs.length = p.runs.length
         ∧ ∀ (j : Nat) (r r' : Run), p.runs[j]? = some r → q.runs[j]? = some r' →
            (r'.text = (translate_text tr r.text).1
             ∧ (truthyStr r.font.name = true → r'.font.name = r.font.name)
             ∧ (truthyNat r.font.size = true → r'.font.size = r.font.size)
             ∧ (truthyBool r.font.bold = true → r'.font.bold = r.font.bold)
             ∧ (truthyBool r.font.italic = true → r'.font.italic = r.font.italic)
             ∧ (truthyBool r.font.underline = true → r'.font.underline = r.font.underline)
             ∧ (truthyNat r.font.color_rgb = true →
                 r'.font.color_rgb = r.font.color_rgb))) := by
  refine ⟨rewrite_text_frame_length tr f h, ?_⟩
  intro i p q hp hq
  rw [rewrite_text_frame_paragraphs tr f h i, hp, Option.map_some'] at hq
  cases hq
  exact assignPara_runs_spec tr _ p

theorem rewrite_frame_shape_preservation_witness :
    (¬ strip (frameText c2wFrame) = [])
    ∧ ((rewrite_text_frame c2wTr c2wFrame).1.paragraphs.length
          = c2wFrame.paragraphs.length
       ∧ ∀ (i : Nat) (p q : Paragraph), c2wFrame.paragraphs[i]? = some p →
           (rewrite_text_frame c2wTr c2wFrame).1.paragraphs[i]? = some q →
           (q.runs.length = p.runs.length
            ∧ ∀ (j : Nat) (r r' : Run), p.runs[j]? = some r → q.runs[j]? = some r' →
               (r'.text = (translate_text c2wTr r.text).1
                ∧ (truthyStr r.font.name = true → r'.font.name = r.font.name)
                ∧ (truthyNat r.font.size = true → r'.font.size = r.font.size)
                ∧ (truthyBool r.font.bold = true → r'.font.bold = r.font.bold)
                ∧ (truthyBool r.font.italic = true → r'.font.italic = r.font.italic)
                ∧ (truthyBool r.font.underline = true →
                    r'.font.underline = r.font.underline)
                ∧ (truthyNat r.font.color_rgb = true →
                    r'.font.color_rgb = r.font.color_rgb)))) :=
  ⟨by decide, rewrite_frame_shape_preservation c2wTr c2wFrame (by decide)⟩

theorem assignPara_warning_mem (tr : Str → Except Str Str) (base pd : Paragraph)
    (j : Nat) (r : Run) (e : Str)
    (hr : pd.runs[j]? = some r) (he : tr r.text = Except.error e) :
    (⟨r.text, e⟩ : Warning) ∈ (assignPara tr base pd).2 := by
  have hmem : r ∈ pd.runs := List.getElem?_mem hr
  apply List.mem_filterMap.mpr
  refine ⟨rebuildRun tr r, List.mem_map.mpr ⟨r, hmem, rfl⟩, ?_⟩
  simp [rebuildRun, translate_text, he]

theorem rewrite_warning_mem (tr : Str → Except Str Str) (f : TextFrame)
    (h : ¬ strip (frameText f) = []) (i j : Nat) (P : Paragraph) (r : Run) (e : Str)
    (hp : f.paragraphs[i]? = some P) (hr : P.runs[j]? = some r)
    (he : tr r.text = Except.error e) :
    (⟨r.text, e⟩ : Warning) ∈ (rewrite_text_frame tr f).2 := by
  unfold rewrite_text_frame
  rw [if_neg h]
  cases hf : f.paragraphs with
  | nil => rw [hf] at hp; simp at hp
  | cons p0 rest =>
    rw [hf] at hp
    cases i with
    | zero =>
      simp only [List.getElem?_cons_zero, Option.some.injEq] at hp
      subst hp
      exact List.mem_append_left _ (assignPara_warning_mem tr _ _ j r e hr he)
    | succ n =>
      simp only [List.getElem?_cons_succ] at hp
      apply List.mem_append_right
      apply List.mem_flatten_of_mem (l := (assignPara tr defaultPara P).2)
      · exact List.mem_map.mpr ⟨assignPara tr defaultPara P,
          List.mem_map.mpr ⟨P, List.getElem?_mem hp, rfl⟩, rfl⟩
      · exact assignPara_warning_mem tr defaultPara P j r e hr he

theorem rewrite_runText_pointwise (tr : Str → Except Str Str) (f : TextFrame)
    (h : ¬ strip (frameText f) = []) (p q : Nat) (u : Str)
    (hu : frameRunText f p q = some u) :
    frameRunText (rewrite_text_frame tr f).1 p q = some (translate_text tr u).1 := by
  unfold frameRunText at hu ⊢
  cases hP : f.paragraphs[p]? with
  | none => rw [hP] at hu; simp at hu
  | some P =>
    rw [hP] at hu
    simp only [Option.some_bind] at hu
    cases hR : P.runs[q]? with
    | none => rw [hR] at hu; simp at hu
    | some r =>
      rw [hR] at hu
      simp only [Option.map_some', Option.some.injEq] at hu
      rw [rewrite_text_frame_paragraphs tr f h p, hP, Option.map_some',
        Option.some_bind, assignPara_runs, List.getElem?_map, hR,
        Option.map_some', Option.map_some']
      rw [← hu]
      rfl

/-- C4: a translation failure for one run is contained: the failing run keeps
its original snapshotted text, a warning naming the failing string and the
underlying error is collected, and every run of the frame (the others
included) ends with exactly the translation result for its own original
text — so other runs are unaffected by the failure. -/
theorem rewrite_translation_failure_contained (tr : Str → Except Str Str)
    (f : TextFrame) (i j : Nat) (t e : Str)
    (h : ¬ strip (frameText f) = [])
    (ht : frameRunText f i j = some t)
    (he : tr t = Except.error e) :
    frameRunText (rewrite_text_frame tr f).1 i j = some t
    ∧ (⟨t, e⟩ : Warning) ∈ (rewrite_text_frame tr f).2
    ∧ ∀ (p q : Nat) (u : Str), frameRunText f p q = some u →
        frameRunText (rewrite_text_frame tr f).1 p q = some (translate_text tr u).1 := by
  refine ⟨?_, ?_, fun p q u hu => rewrite_runText_pointwise tr f h p q u hu⟩
  · have := rewrite_runText_pointwise tr f h i j t ht
    rw [this]
    simp [translate_text, he]
  · unfold frameRunText at ht
    cases hP : f.paragraphs[i]? with
    | none => rw [hP] at ht; simp at ht
    | some P =>
      rw [hP] at ht
      simp only [Option.some_bind] at ht
      cases hR : P.runs[j]? with
      | none => rw [hR] at ht; simp at ht
      | some r =>
        rw [hR] at ht
        simp only [Option.map_some', Option.some.injEq] at ht
        subst ht
        exact rewrite_warning_mem tr f h i j P r e hP hR he

theorem rewrite_translation_failure_contained_witness :
    frameRunText (rewrite_text_frame c4wTr c4wFrame).1 0 1 = some ['B']
    ∧ (⟨['B'], ['E']⟩ : Warning) ∈ (rewrite_text_frame c4wTr c4wFrame).2
    ∧ ∀ (p q : Nat) (u : Str), frameRunText c4wFrame p q = some u →
        frameRunText (rewrite_text_frame c4wTr c4wFrame).1 p q
          = some (translate_text c4wTr u).1 :=
  rewrite_translation_failure_contained c4wTr c4wFrame 0 1 ['B'] ['E']
    (by decide) (by decide) rfl

/-- C7 counterexample: a two-paragraph title whose first paragraph has two
runs (one italic) and whose second paragraph has a bold run.  The driver's
title step replaces the text wholesale: afterwards each paragraph has a
single run with no explicit formatting, so run structure and per-run
formatting are not preserved even though the flattened text is unchanged
(identity translation). -/
theorem title_rewrite_collapses_structure :
    (c7Frame.paragraphs.map (fun p => p.runs.length) = [2, 1])
    ∧ (c7Frame.paragraphs.map (fun p => p.runs.map (fun r => r.font.bold))
        = [[none, none], [some true]])
    ∧ ((translateTitleFrame idTr c7Frame).1.paragraphs.map
        (fun p => p.runs.length) = [1, 1])
    ∧ ((translateTitleFrame idTr c7Frame).1.paragraphs.map
        (fun p => p.runs.map (fun r => r.font.bold)) = [[none], [none]]) := by
  refine ⟨rfl, rfl, by decide, by decide⟩

/-- C7 (amended): the driver's title step does not preserve paragraph/run
structure or formatting.  For a non-blank title it performs a flat text
replacement: the resulting frame is exactly the newline-split of the
translated flattened text, one paragraph per line, each holding a single run
with no explicit formatting and default paragraph attributes. -/
theorem title_rewrite_flat_replacement (tr : Str → Except Str Str)
    (frame : TextFrame) (h : ¬ strip (frameText frame) = []) :
    (translateTitleFrame tr frame).1.paragraphs
      = (splitLines (translate_text tr (frameText frame)).1).map
          (fun line => ⟨none, 0, none, none, none, [⟨line, emptyFont⟩]⟩)
    ∧ ∀ p ∈ (translateTitleFrame tr frame).1.paragraphs,
        p.runs.length = 1 ∧ ∀ r ∈ p.runs, r.font = emptyFont := by
  constructor
  · unfold translateTitleFrame
    rw [if_neg h]
    rfl
  · intro p hp
    unfold translateTitleFrame at hp
    rw [if_neg h] at hp
    simp only [setFrameText, List.mem_map] at hp
    obtain ⟨line, _, rfl⟩ := hp
    refine ⟨rfl, ?_⟩
    intro r hr
    simp only [List.mem_singleton] at hr
    subst hr
    rfl

theorem title_rewrite_flat_replacement_witness :
    ((translateTitleFrame idTr c7Frame).1.paragraphs
      = (splitLines (translate_text idTr (frameText c7Frame)).1).map
          (fun line => ⟨none, 0, none, none, none, [⟨line, emptyFont⟩]⟩))
    ∧ ∀ p ∈ (translateTitleFrame idTr c7Frame).1.paragraphs,
        p.runs.length = 1 ∧ ∀ r ∈ p.runs, r.font = emptyFont :=
  title_rewrite_flat_replacement idTr c7Frame (by decide)

theorem rowCells_eq_enumFrom (rr c0 : Nat) (row : List Str) :
    (rowCells rr c0 row).1 = (row.enumFrom c0).filterMap
      (fun cc => if strip cc.2 = [] then none
                 else some (⟨rr, cc.1, strip cc.2⟩ : Cell)) := by
  induction row generalizing c0 with
  | nil => rfl
  | cons ct rest ih =>
    by_cases hs : strip ct = [] <;>
      simp [rowCells, hs, List.enumFrom, ih]

theorem tableCells_eq_enumFrom (r : Nat) (tbl : List (List Str)) :
    (tableCells r tbl).1 = ((tbl.enumFrom r).map
      (fun rc => (rc.2.enumFrom 0).filterMap
        (fun cc => if strip cc.2 = [] then none
                   else some (⟨rc.1, cc.1, strip cc.2⟩ : Cell)))).flatten := by
  induction tbl generalizing r with
  | nil => rfl
  | cons row rest ih =>
    simp [tableCells, List.enumFrom, ih, rowCells_eq_enumFrom]

theorem rowCells_nil_iff (rr c0 : Nat) (row : List Str) :
    (rowCells rr c0 row).1 = [] ↔ ∀ ct ∈ row, strip ct = [] := by
  induction row generalizing c0 with
  | nil => simp [rowCells]
  | cons ct rest ih =>
    by_cases hs : strip ct = [] <;> simp [rowCells, hs, ih]

theorem tableCells_nil_iff (r : Nat) (tbl : List (List Str)) :
    (tableCells r tbl).1 = [] ↔ ∀ row ∈ tbl, ∀ ct ∈ row, strip ct = [] := by
  induction tbl generalizing r with
  | nil => simp [tableCells]
  | cons row rest ih =>
    simp [tableCells, rowCells_nil_iff, ih]

theorem table_mem_shapeItems (sh : Shape) (tbl : List (List Str))
    (h : sh.table = some tbl) (cs : List Cell) :
    Item.table cs ∈ (shapeItemsStrings sh).1 ↔
      (cs = (tableCells 0 tbl).1 ∧ ¬ (tableCells 0 tbl).1 = []) := by
  unfold shapeItemsStrings
  rw [h]
  cases htf : sh.textFrame with
  | none =>
    by_cases hc : (tableCells 0 tbl).1 = [] <;> simp [hc]
  | some txt =>
    by_cases hst : strip txt = [] <;>
      by_cases hc : (tableCells 0 tbl).1 = [] <;>
        simp [hst, hc]

/-- C6: a `{type: "table"}` item is appended iff some cell of the shape's
table strips to non-empty, and the cells list is exactly the row-major
enumeration of the non-empty cells, each with its 0-based row index, 0-based
column index and stripped text. -/
theorem table_item_emission (sh : Shape) (tbl : List (List Str))
    (h : sh.table = some tbl) :
    ((∃ cs, Item.table cs ∈ (shapeItemsStrings sh).1) ↔
      ∃ row ∈ tbl, ∃ ct ∈ row, ¬ strip ct = [])
    ∧ ∀ cs, Item.table cs ∈ (shapeItemsStrings sh).1 →
        cs = (tbl.enum.map (fun rc =>
          (rc.2.enum.filterMap (fun cc =>
            if strip cc.2 = [] then none
            else some (⟨rc.1, cc.1, strip cc.2⟩ : Cell))))).flatten := by
  constructor
  · constructor
    · rintro ⟨cs, hmem⟩
      rcases (table_mem_shapeItems sh tbl h cs).mp hmem with ⟨-, hne⟩
      rw [tableCells_nil_iff] at hne
      push_neg at hne
      exact hne
    · intro hex
      refine ⟨(tableCells 0 tbl).1, (table_mem_shapeItems sh tbl h _).mpr ⟨rfl, ?_⟩⟩
      rw [tableCells_nil_iff]
      push_neg
      exact hex
  · intro cs hmem
    rw [((table_mem_shapeItems sh tbl h cs).mp hmem).1, tableCells_eq_enumFrom]
    rfl

theorem table_item_emission_witness :
    ((∃ cs, Item.table cs ∈ (shapeItemsStrings c6Shape).1) ↔
      ∃ row ∈ [[[' '], []], [[], [' ','c','e','l','l',' ']]],
        ∃ ct ∈ row, ¬ strip ct = [])
    ∧ ∀ cs, Item.table cs ∈ (shapeItemsStrings c6Shape).1 →
        cs = (([[[' '], []], [[], [' ','c','e','l','l',' ']]] :
            List (List Str)).enum.map (fun rc =>
          (rc.2.enum.filterMap (fun cc =>
            if strip cc.2 = [] then none
            else some (⟨rc.1, cc.1, strip cc.2⟩ : Cell))))).flatten :=
  table_item_emission c6Shape [[[' '], []], [[], [' ','c','e','l','l',' ']]] rfl

theorem dedupGo_sublist (seen : List Str) (l : List Str) :
    (dedupGo seen l).Sublist l := by
  induction l generalizing seen with
  | nil => simp [dedupGo]
  | cons s rest ih =>
    by_cases hs : s ∈ seen
    · rw [dedupGo, if_pos hs]
      exact (ih seen).trans (List.sublist_cons_self s rest)
    · rw [dedupGo, if_neg hs]
      exact (ih (s :: seen)).cons₂ s

theorem dedupGo_mem (seen : List Str) (l : List Str) (x : Str) :
    x ∈ dedupGo seen l ↔ (x ∈ l ∧ x ∉ seen) := by
  induction l generalizing seen with
  | nil => simp [dedupGo]
  | cons s rest ih =>
    by_cases hs : s ∈ seen
    · rw [dedupGo, if_pos hs, ih]
      constructor
      · rintro ⟨h1, h2⟩; exact ⟨List.mem_cons_of_mem s h1, h2⟩
      · rintro ⟨h1, h2⟩
        rcases List.mem_cons.mp h1 with h | h
        · subst h; exact absurd hs h2
        · exact ⟨h, h2⟩
    · rw [dedupGo, if_neg hs]
      by_cases hx : x = s
      · subst hx
        simp [hs]
      · constructor
        · intro hmem
          rcases List.mem_cons.mp hmem with h | h
          · exact absurd h hx
          · rcases (ih (s :: seen)).mp h with ⟨h1, h2⟩
            exact ⟨List.mem_cons_of_mem s h1,
              fun hsn => h2 (List.mem_cons_of_mem s hsn)⟩
        · rintro ⟨h1, h2⟩
          rcases List.mem_cons.mp h1 with h | h
          · exact absurd h hx
          · exact List.mem_cons_of_mem s ((ih (s :: seen)).mpr
              ⟨h, fun hm => hx (by
                rcases List.mem_cons.mp hm with h' | h'
                · exact h'
                · exact absurd h' h2)⟩)

theorem dedupGo_nodup (seen : List Str) (l : List Str) :
    (dedupGo seen l).Nodup := by
  induction l generalizing seen with
  | nil => simp [dedupGo]
  | cons s rest ih =>
    by_cases hs : s ∈ seen
    · rw [dedupGo, if_pos hs]; exact ih seen
    · rw [dedupGo, if_neg hs]
      refine List.Nodup.cons ?_ (ih (s :: seen))
      intro hmem
      exact ((dedupGo_mem (s :: seen) rest s).mp hmem).2 (List.mem_cons_self s seen)

theorem dedupGo_congr (s1 s2 : List Str) (l : List Str)
    (h : ∀ x, x ∈ s1 ↔ x ∈ s2) : dedupGo s1 l = dedupGo s2 l := by
  induction l generalizing s1 s2 with
  | nil => rfl
  | cons s rest ih =>
    by_cases hs : s ∈ s1
    · rw [dedupGo, if_pos hs, dedupGo, if_pos ((h s).mp hs)]
      exact ih s1 s2 h
    · rw [dedupGo, if_neg hs, dedupGo, if_neg (fun hm => hs ((h s).mpr hm))]
      refine congrArg (s :: ·) (ih (s :: s1) (s :: s2) ?_)
      intro x
      simp [h x]

theorem dedupGo_seen_filter (a : Str) (l : List Str) (seen : List Str) :
    dedupGo (a :: seen) l = dedupGo seen (l.filter (fun x => x ≠ a)) := by
  induction l generalizing seen with
  | nil => rfl
  | cons b rest ih =>
    by_cases hb : b = a
    · subst hb
      rw [dedupGo, if_pos (List.mem_cons_self b seen)]
      rw [List.filter_cons_of_neg (by simp)]
      exact ih seen
    · rw [List.filter_cons_of_pos (by simpa using hb)]
      by_cases hseen : b ∈ seen
      · rw [dedupGo, if_pos (List.mem_cons_of_mem a hseen), dedupGo, if_pos hseen]
        exact ih seen
      · rw [dedupGo, if_neg (by
          intro hm
          rcases List.mem_cons.mp hm with h | h
          · exact hb h
          · exact hseen h)]
        rw [dedupGo, if_neg hseen]
        refine congrArg (b :: ·) ?_
        rw [← ih (b :: seen)]
        exact dedupGo_congr _ _ rest (by intro x; constructor <;> intro hm <;>
          simp only [List.mem_cons] at hm ⊢ <;> tauto)

theorem dedupFirst_cons (a : Str) (l : List Str) :
    dedupFirst (a :: l) = a :: dedupFirst (l.filter (fun x => x ≠ a)) := by
  unfold dedupFirst
  rw [dedupGo, if_neg (List.not_mem_nil a)]
  exact congrArg (a :: ·) (dedupGo_seen_filter a l [])

theorem rowCells_strings_good (rr c0 : Nat) (row : List Str) :
    ∀ s ∈ (rowCells rr c0 row).2, is_english s = true ∧ strip s = s ∧ ¬ s = [] := by
  induction row generalizing c0 with
  | nil => simp [rowCells]
  | cons ct rest ih =>
    intro s hs
    simp only [rowCells] at hs
    by_cases h : strip ct = []
    · rw [if_pos h] at hs
      exact ih (c0 + 1) s hs
    · rw [if_neg h] at hs
      simp only [List.mem_append] at hs
      rcases hs with hs | hs
      · cases he : is_english (strip ct) with
        | false => rw [he] at hs; simp at hs
        | true =>
          rw [he] at hs
          simp only [if_true, List.mem_singleton] at hs
          subst hs
          exact ⟨he, strip_idem ct, h⟩
      · exact ih (c0 + 1) s hs

theorem tableCells_strings_good (r : Nat) (tbl : List (List Str)) :
    ∀ s ∈ (tableCells r tbl).2, is_english s = true ∧ strip s = s ∧ ¬ s = [] := by
  induction tbl generalizing r with
  | nil => simp [tableCells]
  | cons row rest ih =>
    intro s hs
    simp only [tableCells, List.mem_append] at hs
    rcases hs with hs | hs
    · exact rowCells_strings_good r 0 row s hs
    · exact ih (r + 1) s hs

theorem shape_strings_good (sh : Shape) :
    ∀ s ∈ (shapeItemsStrings sh).2, is_english s = true ∧ strip s = s ∧ ¬ s = [] := by
  intro s hs
  simp only [shapeItemsStrings, List.mem_append] at hs
  rcases hs with hs | hs
  · cases htf : sh.textFrame with
    | none => rw [htf] at hs; simp at hs
    | some txt =>
      rw [htf] at hs
      dsimp only at hs
      by_cases h : strip txt = []
      · rw [if_pos h] at hs; simp at hs
      · rw [if_neg h] at hs
        dsimp only at hs
        cases he : is_english (strip txt) with
        | false => rw [he] at hs; simp at hs
        | true =>
          rw [he] at hs
          simp only [if_true, List.mem_singleton] at hs
          subst hs
          exact ⟨he, strip_idem txt, h⟩
  · cases htb : sh.table with
    | none => rw [htb] at hs; simp at hs
    | some tbl =>
      rw [htb] at hs
      exact tableCells_strings_good 0 tbl s hs

theorem extractShapes_strings_good (tIdx : Option Nat) (j : Nat) (shapes : List Shape) :
    ∀ s ∈ (extractShapes tIdx j shapes).2,
      is_english s = true ∧ strip s = s ∧ ¬ s = [] := by
  induction shapes generalizing j with
  | nil => simp [extractShapes]
  | cons sh rest ih =>
    intro s hs
    simp only [extractShapes, List.mem_append] at hs
    rcases hs with hs | hs
    · by_cases ht : tIdx = some j
      · rw [if_pos ht] at hs; simp at hs
      · rw [if_neg ht] at hs
        exact shape_strings_good sh s hs
    · exact ih (j + 1) s hs

theorem slideTitleText_stripped (s : Slide) (t : Str)
    (h : slideTitleText s = some t) : strip t = t := by
  unfold slideTitleText at h
  cases hti : s.titleIdx with
  | none => rw [hti] at h; simp at h
  | some i =>
    rw [hti] at h
    dsimp only at h
    cases hg : s.shapes.get? i with
    | none => rw [hg] at h; simp at h
    | some sh =>
      rw [hg] at h
      dsimp only at h
      cases htf : sh.textFrame with
      | none => rw [htf] at h; simp at h
      | some raw =>
        rw [htf] at h
        simp only [Option.map_some', Option.some.injEq] at h
        subst h
        exact strip_idem raw

theorem extractSlide_strings_good (idx : Nat) (s : Slide) :
    ∀ x ∈ (extractSlide idx s).2, is_english x = true ∧ strip x = x ∧ ¬ x = [] := by
  intro x hx
  simp only [extractSlide, List.mem_append] at hx
  rcases hx with (hx | hx) | hx
  · cases hT : slideTitleText s with
    | none => rw [hT] at hx; simp at hx
    | some t =>
      rw [hT] at hx
      dsimp only at hx
      by_cases h0 : t = []
      · rw [if_pos h0] at hx; simp at hx
      · rw [if_neg h0] at hx
        dsimp only at hx
        cases he : is_english t with
        | false => rw [he] at hx; simp at hx
        | true =>
          rw [he] at hx
          simp only [if_true, List.mem_singleton] at hx
          subst hx
          exact ⟨he, slideTitleText_stripped s x hT, h0⟩
  · exact extractShapes_strings_good s.titleIdx 0 s.shapes x hx
  · by_cases h0 : strip (match s.notes with | none => [] | some n => n) = []
    · rw [if_pos h0] at hx; simp at hx
    · rw [if_neg h0] at hx
      dsimp only at hx
      cases he : is_english (strip (match s.notes with | none => [] | some n => n)) with
      | false => rw [he] at hx; simp at hx
      | true =>
        rw [he] at hx
        simp only [if_true, List.mem_singleton] at hx
        subst hx
        exact ⟨he, strip_idem _, h0⟩

theorem extractSlides_strings_good (idx : Nat) (slides : List Slide) :
    ∀ x ∈ (extractSlides idx slides).2,
      is_english x = true ∧ strip x = x ∧ ¬ x = [] := by
  induction slides generalizing idx with
  | nil => simp [extractSlides]
  | cons s rest ih =>
    intro x hx
    simp only [extractSlides, List.mem_append] at hx
    rcases hx with hx | hx
    · exact extractSlide_strings_good idx s x hx
    · exact ih (idx + 1) x hx

/-- C5: the `strings` list of the extraction output is the order-preserving
deduplication of the collected pool (first occurrences kept in place, later
duplicates dropped — characterised by the recursion law in the last
conjunct), contains no duplicates, and every element is classified and
non-empty after trimming. -/
theorem strings_pool_spec (prs : Presentation) :
    (extract_from_presentation prs).strings = dedupFirst (collectedStrings prs)
    ∧ (extract_from_presentation prs).strings.Nodup
    ∧ ((extract_from_presentation prs).strings).Sublist (collectedStrings prs)
    ∧ (∀ x : Str, x ∈ (extract_from_presentation prs).strings ↔
        x ∈ collectedStrings prs)
    ∧ (∀ x ∈ (extract_from_presentation prs).strings,
        is_english x = true ∧ strip x = x ∧ ¬ x = [])
    ∧ (∀ (a : Str) (l : List Str),
        dedupFirst (a :: l) = a :: dedupFirst (l.filter (fun x => x ≠ a))) := by
  refine ⟨rfl, dedupGo_nodup [] _, dedupGo_sublist [] _, ?_, ?_, dedupFirst_cons⟩
  · intro x
    rw [show (extract_from_presentation prs).strings
        = dedupGo [] (collectedStrings prs) from rfl]
    rw [dedupGo_mem]
    simp
  · intro x hx
    have hx' : x ∈ collectedStrings prs :=
      ((dedupGo_mem [] (collectedStrings prs) x).mp hx).1
    exact extractSlides_strings_good 1 prs.slides x hx'

theorem rowCells_cells_good (rr c0 : Nat) (row : List Str) :
    ∀ cell ∈ (rowCells rr c0 row).1,
      strip cell.text = cell.text ∧ ¬ cell.text = [] := by
  induction row generalizing c0 with
  | nil => simp [rowCells]
  | cons ct rest ih =>
    intro cell hc
    simp only [rowCells] at hc
    by_cases h : strip ct = []
    · rw [if_pos h] at hc
      exact ih (c0 + 1) cell hc
    · rw [if_neg h] at hc
      rcases List.mem_cons.mp hc with hc | hc
      · subst hc
        exact ⟨strip_idem ct, h⟩
      · exact ih (c0 + 1) cell hc

theorem tableCells_cells_good (r : Nat) (tbl : List (List Str)) :
    ∀ cell ∈ (tableCells r tbl).1,
      strip cell.text = cell.text ∧ ¬ cell.text = [] := by
  induction tbl generalizing r with
  | nil => simp [tableCells]
  | cons row rest ih =>
    intro cell hc
    simp only [tableCells, List.mem_append] at hc
    rcases hc with hc | hc
    · exact rowCells_cells_good r 0 row cell hc
    · exact ih (r + 1) cell hc

theorem shape_items_good (sh : Shape) :
    ∀ it ∈ (shapeItemsStrings sh).1,
      (∀ t, it = Item.text t → strip t = t ∧ ¬ t = [])
      ∧ (∀ cs, it = Item.table cs →
          ∀ cell ∈ cs, strip cell.text = cell.text ∧ ¬ cell.text = []) := by
  intro it hit
  simp only [shapeItemsStrings, List.mem_append] at hit
  rcases hit with hit | hit
  · cases htf : sh.textFrame with
    | none => rw [htf] at hit; simp at hit
    | some txt =>
      rw [htf] at hit
      dsimp only at hit
      by_cases h : strip txt = []
      · rw [if_pos h] at hit; simp at hit
      · rw [if_neg h] at hit
        simp only [List.mem_singleton] at hit
        subst hit
        constructor
        · intro t ht
          cases ht
          exact ⟨strip_idem txt, h⟩
        · intro cs hcs
          cases hcs
  · cases htb : sh.table with
    | none => rw [htb] at hit; simp at hit
    | some tbl =>
      rw [htb] at hit
      dsimp only at hit
      by_cases hc : (tableCells 0 tbl).1 = []
      · rw [if_pos hc] at hit; simp at hit
      · rw [if_neg hc] at hit
        simp only [List.mem_singleton] at hit
        subst hit
        constructor
        · intro t ht
          cases ht
        · intro cs hcs
          cases hcs
          exact tableCells_cells_good 0 tbl

theorem extractShapes_items_good (tIdx : Option Nat) (j : Nat) (shapes : List Shape) :
    ∀ it ∈ (extractShapes tIdx j shapes).1,
      (∀ t, it = Item.text t → strip t = t ∧ ¬ t = [])
      ∧ (∀ cs, it = Item.table cs →
          ∀ cell ∈ cs, strip cell.text = cell.text ∧ ¬ cell.text = []) := by
  induction shapes generalizing j with
  | nil => simp [extractShapes]
  | cons sh rest ih =>
    intro it hit
    simp only [extractShapes, List.mem_append] at hit
    rcases hit with hit | hit
    · by_cases ht : tIdx = some j
      · rw [if_pos ht] at hit; simp at hit
      · rw [if_neg ht] at hit
        exact shape_items_good sh it hit
    · exact ih (j + 1) it hit

theorem extractSlide_entry_good (idx : Nat) (s : Slide) :
    (∀ t, (extractSlide idx s).1.title = some t → strip t = t ∧ ¬ t = [])
    ∧ (∀ it ∈ (extractSlide idx s).1.items,
        (∀ t, it = Item.text t → strip t = t ∧ ¬ t = [])
        ∧ (∀ cs, it = Item.table cs →
            ∀ cell ∈ cs, strip cell.text = cell.text ∧ ¬ cell.text = []))
    ∧ (∀ n, (extractSlide idx s).1.notes = some n → strip n = n ∧ ¬ n = []) := by
  refine ⟨?_, ?_, ?_⟩
  · intro t ht
    simp only [extractSlide] at ht
    cases hT : slideTitleText s with
    | none => rw [hT] at ht; simp at ht
    | some u =>
      rw [hT] at ht
      dsimp only at ht
      by_cases h0 : u = []
      · rw [if_pos h0] at ht; simp at ht
      · rw [if_neg h0] at ht
        simp only [Option.some.injEq] at ht
        subst ht
        exact ⟨slideTitleText_stripped s _ hT, h0⟩
  · intro it hit
    simp only [extractSlide] at hit
    exact extractShapes_items_good s.titleIdx 0 s.shapes it hit
  · intro n hn
    simp only [extractSlide] at hn
    by_cases h0 : strip (match s.notes with | none => [] | some n => n) = []
    · rw [if_pos h0] at hn; simp at hn
    · rw [if_neg h0] at hn
      simp only [Option.some.injEq] at hn
      subst hn
      exact ⟨strip_idem _, h0⟩

theorem extractSlides_entries_mem (idx : Nat) (slides : List Slide) :
    ∀ e ∈ (extractSlides idx slides).1,
      ∃ k s, e = (extractSlide k s).1 := by
  induction slides generalizing idx with
  | nil => simp [extractSlides]
  | cons s rest ih =>
    intro e he
    simp only [extractSlides, List.mem_cons] at he
    rcases he with he | he
    · exact ⟨idx, s, he⟩
    · exact ih (idx + 1) e he

/-- C9: every text value placed in the extraction output — the `strings`
elements and every title, text-item text, table-cell text and notes value of
the per-slide records — is stored already trimmed (it equals its own
stripping) and non-empty. -/
theorem output_values_trimmed (prs : Presentation) :
    (∀ x ∈ (extract_from_presentation prs).strings, strip x = x ∧ ¬ x = [])
    ∧ ∀ e ∈ (extract_from_presentation prs).slides,
        (∀ t, e.title = some t → strip t = t ∧ ¬ t = [])
        ∧ (∀ it ∈ e.items,
            (∀ t, it = Item.text t → strip t = t ∧ ¬ t = [])
            ∧ (∀ cs, it = Item.table cs →
                ∀ cell ∈ cs, strip cell.text = cell.text ∧ ¬ cell.text = []))
        ∧ (∀ n, e.notes = some n → strip n = n ∧ ¬ n = []) := by
  constructor
  · intro x hx
    have hx' : x ∈ collectedStrings prs :=
      ((dedupGo_mem [] (collectedStrings prs) x).mp hx).1
    have h := extractSlides_strings_good 1 prs.slides x hx'
    exact ⟨h.2.1, h.2.2⟩
  · intro e he
    obtain ⟨k, s, rfl⟩ := extractSlides_entries_mem 1 prs.slides e he
    exact extractSlide_entry_good k s

theorem extractSlides_length (idx : Nat) (slides : List Slide) :
    (extractSlides idx slides).1.length = slides.length := by
  induction slides generalizing idx with
  | nil => rfl
  | cons s rest ih => simp [extractSlides, ih]

theorem extractSlides_getElem? (idx : Nat) (slides : List Slide) (i : Nat) :
    (extractSlides idx slides).1[i]?
      = (slides[i]?).map (fun s => (extractSlide (idx + i) s).1) := by
  induction slides generalizing idx i with
  | nil => simp [extractSlides]
  | cons s rest ih =>
    cases i with
    | zero => simp [extractSlides]
    | succ n =>
      simp only [extractSlides, List.getElem?_cons_succ]
      rw [ih (idx + 1) n]
      have harith : idx + 1 + n = idx + (n + 1) := by omega
      rw [harith]

theorem extractSlide_slide_index (idx : Nat) (s : Slide) :
    (extractSlide idx s).1.slide_index = idx := rfl

theorem rowCells_all_empty (rr c0 : Nat) (row : List Str)
    (h : ∀ ct ∈ row, strip ct = []) : rowCells rr c0 row = ([], []) := by
  induction row generalizing c0 with
  | nil => rfl
  | cons ct rest ih =>
    have hct : strip ct = [] := h ct (List.mem_cons_self ct rest)
    simp only [rowCells, hct, if_pos]
    exact ih (c0 + 1) (fun x hx => h x (List.mem_cons_of_mem ct hx))

theorem tableCells_all_empty (r : Nat) (tbl : List (List Str))
    (h : ∀ row ∈ tbl, ∀ ct ∈ row, strip ct = []) : tableCells r tbl = ([], []) := by
  induction tbl generalizing r with
  | nil => rfl
  | cons row rest ih =>
    simp only [tableCells]
    rw [rowCells_all_empty r 0 row (h row (List.mem_cons_self row rest)),
      ih (r + 1) (fun x hx => h x (List.mem_cons_of_mem row hx))]
    rfl

theorem shapeItemsStrings_empty (sh : Shape)
    (h1 : ∀ txt, sh.textFrame = some txt → strip txt = [])
    (h2 : ∀ tbl, sh.table = some tbl → ∀ row ∈ tbl, ∀ ct ∈ row, strip ct = []) :
    shapeItemsStrings sh = ([], []) := by
  unfold shapeItemsStrings
  cases htf : sh.textFrame with
  | none =>
    cases htb : sh.table with
    | none => rfl
    | some tbl =>
      dsimp only
      rw [tableCells_all_empty 0 tbl (h2 tbl htb)]
      rfl
  | some txt =>
    have hstxt := h1 txt htf
    cases htb : sh.table with
    | none => dsimp only; simp [hstxt]
    | some tbl =>
      dsimp only
      rw [tableCells_all_empty 0 tbl (h2 tbl htb)]
      simp [hstxt]

theorem extractShapes_empty (tIdx : Option Nat) (j : Nat) (shapes : List Shape)
    (h : ∀ sh ∈ shapes, (∀ txt, sh.textFrame = some txt → strip txt = [])
      ∧ (∀ tbl, sh.table = some tbl → ∀ row ∈ tbl, ∀ ct ∈ row, strip ct = [])) :
    extractShapes tIdx j shapes = ([], []) := by
  induction shapes generalizing j with
  | nil => rfl
  | cons sh rest ih =>
    simp only [extractShapes]
    rw [ih (j + 1) (fun x hx => h x (List.mem_cons_of_mem sh hx))]
    by_cases ht : tIdx = some j
    · rw [if_pos ht]
      rfl
    · rw [if_neg ht,
        shapeItemsStrings_empty sh (h sh (List.mem_cons_self sh rest)).1
          (h sh (List.mem_cons_self sh rest)).2]
      rfl

theorem extractSlide_degenerate (idx : Nat) (s : Slide)
    (ht : ∀ t, slideTitleText s = some t → t = [])
    (hsh : ∀ sh ∈ s.shapes, (∀ txt, sh.textFrame = some txt → strip txt = [])
      ∧ (∀ tbl, sh.table = some tbl → ∀ row ∈ tbl, ∀ ct ∈ row, strip ct = []))
    (hn : ∀ n, s.notes = some n → strip n = []) :
    extractSlide idx s = (⟨idx, none, [], none⟩, []) := by
  have hnotes : strip (match s.notes with | none => [] | some n => n) = [] := by
    cases hn0 : s.notes with
    | none => rfl
    | some n => exact hn n hn0
  unfold extractSlide
  rw [extractShapes_empty s.titleIdx 0 s.shapes hsh]
  cases hT : slideTitleText s with
  | none => simp [hnotes]
  | some t =>
    have := ht t hT
    subst this
    simp [hnotes]

/-- C10: extraction emits one record per slide in document order with
1-based `slide_index`; each record is a function of its slide alone; and a
slide with no usable title text, no non-blank text frame or table cell, and
no non-blank notes yields exactly the record `{slide_index, items: []}` with
no title and no notes (the `items` field is always present by construction of
`SlideEntry`). -/
theorem slide_records_spec (prs : Presentation) :
    (extract_from_presentation prs).slides.length = prs.slides.length
    ∧ (∀ (i : Nat) (e : SlideEntry),
        (extract_from_presentation prs).slides[i]? = some e →
        e.slide_index = i + 1
        ∧ ∃ s, prs.slides[i]? = some s ∧ e = (extractSlide (i + 1) s).1)
    ∧ (∀ (i : Nat) (s : Slide), prs.slides[i]? = some s →
        (∀ t, slideTitleText s = some t → t = []) →
        (∀ sh ∈ s.shapes, (∀ txt, sh.textFrame = some txt → strip txt = [])
          ∧ (∀ tbl, sh.table = some tbl → ∀ row ∈ tbl, ∀ ct ∈ row, strip ct = [])) →
        (∀ n, s.notes = some n → strip n = []) →
        (extractSlide (i + 1) s).1 = ⟨i + 1, none, [], none⟩) := by
  refine ⟨extractSlides_length 1 prs.slides, ?_, ?_⟩
  · intro i e he
    rw [show (extract_from_presentation prs).slides = (extractSlides 1 prs.slides).1
        from rfl, extractSlides_getElem? 1 prs.slides i] at he
    cases hg : prs.slides[i]? with
    | none => rw [hg] at he; simp at he
    | some s =>
      rw [hg] at he
      simp only [Option.map_some', Option.some.injEq] at he
      subst he
      refine ⟨?_, s, rfl, ?_⟩
      · rw [extractSlide_slide_index]
        omega
      · have harith : 1 + i = i + 1 := by omega
        rw [harith]
  · intro i s _ ht hsh hn
    rw [extractSlide_degenerate (i + 1) s ht hsh hn]

end Pptx
